import Mathlib

/-!
Verification development for the PostOp AI repository: the discharge
workflow session tools (packages/agent/src/tools/DischargeTools.js), the
passive-mode exit-trigger detector (packages/shared/src/utils.js), the
shared session schema, and the call scheduling engine described in the
repository documentation (scheduling/models.py, scheduling/scheduler.py,
scheduling/worker.py, followup/call_executor.py).
-/

namespace PostOp

/-! ### Character-level string model

JavaScript strings are modelled as `List Char`; the case-insensitive
regular-expression tests of `utils.js` are modelled by ASCII lowering
followed by substring search, which is what the `/i` flag amounts to on
the all-ASCII trigger patterns. -/

/-- ASCII lowercase of one character (JavaScript `/i` canonicalization on
the ASCII range). -/
def lowerChar (c : Char) : Char :=
  if 65 ≤ c.toNat ∧ c.toNat ≤ 90 then Char.ofNat (c.toNat + 32) else c

/-- ASCII lowercase of a character list. -/
def lowerStr (s : List Char) : List Char := s.map lowerChar

/-- The ASCII apostrophe character (U+0027), as it appears in the trigger
patterns of `utils.js`. -/
def apos : Char := Char.ofNat 39

/-- `leadsWith p l` holds when `p` is an initial run of `l` (Boolean). -/
def leadsWith : List Char → List Char → Bool
  | [], _ => true
  | _ :: _, [] => false
  | p :: ps, c :: cs => p == c && leadsWith ps cs

/-- `hasSub p l` holds when `p` occurs contiguously inside `l` (Boolean). -/
def hasSub (p l : List Char) : Bool :=
  match l with
  | [] => leadsWith p []
  | _ :: cs => leadsWith p l || hasSub p cs

/-- `Occurs p l`: the pattern `p` occurs contiguously inside `l`. -/
def Occurs (p l : List Char) : Prop := ∃ a b, l = a ++ p ++ b

/-- A character matched by an unflagged JavaScript regex dot: anything but
a line terminator. -/
def dotMatches (c : Char) : Bool :=
  !(c == Char.ofNat 10 || c == Char.ofNat 13 ||
    c == Char.ofNat 0x2028 || c == Char.ofNat 0x2029)

/-! ### The exit-trigger patterns of `containsPassiveModeExitTrigger` -/

def mayaPat : List Char := "maya".toList

def translatePat : List Char := "translate".toList

def thatsAllPat : List Char := "that".toList ++ [apos] ++ "s all".toList

def anyQuestionsPat : List Char := "any questions".toList

def wereDonePat : List Char := "we".toList ++ [apos] ++ "re done".toList

def didYouGetPat : List Char := "did you get".toList

def capturePat : List Char := "capture".toList

def wereAllSetPat : List Char := "we".toList ++ [apos] ++ "re all set".toList

def listeningPat : List Char := "listening".toList

/-- Matcher for the tail `.*listening` of the ninth trigger regex:
some run of non-line-terminator characters followed by `listening`. -/
def restListening (l : List Char) : Bool :=
  match l with
  | [] => leadsWith listeningPat []
  | c :: cs => leadsWith listeningPat l || (dotMatches c && restListening cs)

/-- Matcher for the ninth trigger regex `/maya.*listening/i` of
`utils.js` (on an already-lowered character list). -/
def mayaThenListening (l : List Char) : Bool :=
  match l with
  | [] => false
  | _ :: cs =>
    (leadsWith mayaPat l && restListening (l.drop 4)) || mayaThenListening cs

/-- Embeds `containsPassiveModeExitTrigger` from
`packages/shared/src/utils.js` (lines 22–36): the disjunction of the nine
case-insensitive trigger regexes, each tested against the whole text. -/
def containsPassiveModeExitTrigger (text : String) : Bool :=
  let l := lowerStr text.toList
  hasSub mayaPat l || hasSub translatePat l || hasSub thatsAllPat l ||
  hasSub anyQuestionsPat l || hasSub wereDonePat l || hasSub didYouGetPat l ||
  hasSub capturePat l || hasSub wereAllSetPat l || mayaThenListening l

/-! ### Session data model

`SessionDataSchema` from the shared type definitions: patient name and
language (nullable), a workflow mode whose schema enum is
`setup | passive_listening | active_translation | verification`, a passive
flag, the ordered list of collected instructions, the people in the room
and the session id.  `workflowMode` is carried as a plain string because
the tool code writes to it without going through the schema. -/

/-- One collected instruction `{text, category, timestamp}`. -/
structure Instruction where
  text : String
  category : String
  timestamp : Nat
  deriving DecidableEq, Repr

/-- The session state shared by the discharge tools
(`SessionDataSchema`). -/
structure SessionData where
  patientName : Option String
  patientLanguage : Option String
  workflowMode : String
  isPassiveMode : Bool
  collectedInstructions : List Instruction
  roomPeople : List String
  sessionId : String
  deriving DecidableEq, Repr

/-- The four workflow modes enumerated by `SessionDataSchema`. -/
def workflowModes : List String :=
  ["setup", "passive_listening", "active_translation", "verification"]

/-- Embeds the `start_passive_listening` tool of `DischargeTools.js`:
sets the passive flag and enters `passive_listening` mode. -/
def startPassiveListening (sd : SessionData) : SessionData :=
  { sd with isPassiveMode := true, workflowMode := "passive_listening" }

/-- Embeds the `exit_passive_listening` tool of `DischargeTools.js`
(lines 31–58): clears the passive flag and writes the literal string
`active` into `workflowMode`. -/
def exitPassiveListening (sd : SessionData) : SessionData :=
  { sd with isPassiveMode := false, workflowMode := "active" }

/-- Embeds the `collect_instruction` tool of `DischargeTools.js`
(lines 86–106): appends `{text, category || 'general', timestamp}` to
`collectedInstructions`.  The JavaScript `category || 'general'` default
fires when the category is absent or is the empty string (both falsy). -/
def collectInstruction (sd : SessionData) (instruction : String)
    (category : Option String) (now : Nat) : SessionData :=
  let cat := match category with
    | none => "general"
    | some c => if c = "" then "general" else c
  { sd with collectedInstructions :=
      sd.collectedInstructions ++ [⟨instruction, cat, now⟩] }

/-- Modelled from the spec: the passive-listening turn loop (§4.5) —
code driving the session through a transcript is not in the repository
source (the live agent's LLM loop plays this role).  Each utterance is
checked against the exit triggers; the first trigger exits passive
listening (via the `exit_passive_listening` tool) and stops collection;
a non-trigger utterance is appended via the `collect_instruction` tool
exactly when the instruction-shape classifier accepts it. -/
def runPassiveListening (isInstructionShaped : String → Bool) (now : Nat)
    (sd : SessionData) : List String → SessionData
  | [] => sd
  | u :: rest =>
    if containsPassiveModeExitTrigger u then exitPassiveListening sd
    else runPassiveListening isInstructionShaped now
      (if isInstructionShaped u then collectInstruction sd u none now else sd)
      rest

/-! ### TimingResolver

Modelled from the spec: the Python timing resolver
(`scheduling/scheduler.py`) is referenced by the repository's
documentation and shell scripts but its source is not in the repository
tree, so `resolve` and its grammar are built from the spec's §4.1
contract.  Timestamps are integers (seconds since the epoch, local time
taken as UTC); an anchor may be absent. -/

/-- ASCII digit test. -/
def isDigitC (c : Char) : Bool := 48 ≤ c.toNat && c.toNat ≤ 57

/-- Decimal value of a digit run. -/
def digitsToNat (l : List Char) : Nat :=
  l.foldl (fun a c => 10 * a + (c.toNat - 48)) 0

/-- `stripLead p l` removes the literal lead `p` from `l`, failing when
`l` does not start with `p`. -/
def stripLead : List Char → List Char → Option (List Char)
  | [], l => some l
  | _ :: _, [] => none
  | p :: ps, c :: cs => if p = c then stripLead ps cs else none

/-- The literal tail `_hours_after_discharge` of the two
discharge-relative productions. -/
def hoursAfterTail : List Char :=
  ['_', 'h', 'o', 'u', 'r', 's', '_', 'a', 'f', 't', 'e', 'r', '_',
   'd', 'i', 's', 'c', 'h', 'a', 'r', 'g', 'e']

/-- The literal lead `daily_for_` of the daily production. -/
def dailyLead : List Char := ['d', 'a', 'i', 'l', 'y', '_', 'f', 'o', 'r', '_']

/-- The literal middle `_days_starting_` of the daily production. -/
def daysStartingMid : List Char :=
  ['_', 'd', 'a', 'y', 's', '_', 's', 't', 'a', 'r', 't', 'i', 'n', 'g', '_']

/-- The literal lead `within_` of the best-effort production. -/
def withinLead : List Char := ['w', 'i', 't', 'h', 'i', 'n', '_']

/-- The literal tail `_hours` of the best-effort production. -/
def hoursTail : List Char := ['_', 'h', 'o', 'u', 'r', 's']

/-- The literal lead `day_before_date:` of the absolute-date production. -/
def dayBeforeLead : List Char :=
  ['d', 'a', 'y', '_', 'b', 'e', 'f', 'o', 'r', 'e', '_',
   'd', 'a', 't', 'e', ':']

/-- Abstract syntax of a recognized timing specification. -/
inductive TimingSpec where
  | hoursAfter (n : Nat)
  | dailyFor (n m : Nat)
  | withinHours (n : Nat)
  | dayBefore (y mo d : Nat)
  deriving DecidableEq, Repr

/-- Reads the `"<N>_hours_after_discharge"` production. -/
def readHoursAfter (l : List Char) : Option Nat :=
  if l.takeWhile isDigitC ≠ [] ∧ l.dropWhile isDigitC = hoursAfterTail then
    some (digitsToNat (l.takeWhile isDigitC))
  else none

/-- Reads the `"daily_for_<N>_days_starting_<M>_hours_after_discharge"`
production. -/
def readDaily (l : List Char) : Option (Nat × Nat) :=
  match stripLead dailyLead l with
  | none => none
  | some r1 =>
    if r1.takeWhile isDigitC = [] then none
    else
      match stripLead daysStartingMid (r1.dropWhile isDigitC) with
      | none => none
      | some r2 =>
        if r2.takeWhile isDigitC ≠ [] ∧ r2.dropWhile isDigitC = hoursAfterTail
        then
          some (digitsToNat (r1.takeWhile isDigitC),
                digitsToNat (r2.takeWhile isDigitC))
        else none

/-- Reads the `"within_<N>_hours"` production. -/
def readWithin (l : List Char) : Option Nat :=
  match stripLead withinLead l with
  | none => none
  | some r =>
    if r.takeWhile isDigitC ≠ [] ∧ r.dropWhile isDigitC = hoursTail then
      some (digitsToNat (r.takeWhile isDigitC))
    else none

/-- Reads the `"day_before_date:<ISO-date>"` production (date-only ISO
form `YYYY-MM-DD`). -/
def readDayBefore (l : List Char) : Option (Nat × Nat × Nat) :=
  match stripLead dayBeforeLead l with
  | none => none
  | some r =>
    match r with
    | [y1, y2, y3, y4, h1, m1, m2, h2, d1, d2] =>
      if (isDigitC y1 && isDigitC y2 && isDigitC y3 && isDigitC y4 &&
          isDigitC m1 && isDigitC m2 && isDigitC d1 && isDigitC d2) ∧
          h1 = '-' ∧ h2 = '-' then
        some (digitsToNat [y1, y2, y3, y4], digitsToNat [m1, m2],
              digitsToNat [d1, d2])
      else none
    | _ => none

/-- Reads a timing specification (already ASCII-lowered).  The four
productions start with a digit, `daily_for_`, `within_` and
`day_before_date:` respectively, so they are mutually exclusive. -/
def readTiming (l : List Char) : Option TimingSpec :=
  match readDaily l with
  | some (n, m) => some (.dailyFor n m)
  | none =>
    match readHoursAfter l with
    | some n => some (.hoursAfter n)
    | none =>
      match readWithin l with
      | some n => some (.withinHours n)
      | none =>
        match readDayBefore l with
        | some (y, mo, d) => some (.dayBefore y mo d)
        | none => none

/-- Seconds in an hour. -/
def hourSec : Int := 3600

/-- Seconds in a day. -/
def daySec : Int := 86400

/-- Days from the epoch 1970-01-01 of a civil date (proleptic Gregorian,
standard era decomposition with floor division). -/
def daysFromCivil (y mo d : Nat) : Int :=
  let yy : Int := if mo ≤ 2 then (y : Int) - 1 else (y : Int)
  let era : Int := Int.fdiv yy 400
  let yoe : Int := yy - era * 400
  let mp : Int := ((mo : Int) + 9) % 12
  let doy : Int := Int.fdiv (153 * mp + 2) 5 + (d : Int) - 1
  let doe : Int := yoe * 365 + Int.fdiv yoe 4 - Int.fdiv yoe 100 + doy
  era * 146097 + doe - 719468

/-- The error taxonomy of the resolver (§4.1, §7). -/
inductive TimingError where
  | invalidTimingSpec
  | missingAnchor
  | pastSchedule
  deriving DecidableEq, Repr

/-- `true` on the three anchor-relative productions, `false` on the
absolute-date production. -/
def dischargeRelative : TimingSpec → Bool
  | .dayBefore _ _ _ => false
  | _ => true

/-- Raw timestamps of a parsed spec before the past-schedule check: the
relative forms need the anchor, the absolute form resolves to the day
before the date at 09:00. -/
def candidateTimes : TimingSpec → Option Int → Except TimingError (List Int)
  | .hoursAfter n, some a => .ok [a + (n : Int) * hourSec]
  | .hoursAfter _, none => .error .missingAnchor
  | .dailyFor n m, some a =>
    .ok ((List.range n).map fun k : Nat =>
      a + (m : Int) * hourSec + (k : Int) * daySec)
  | .dailyFor _ _, none => .error .missingAnchor
  | .withinHours n, some a => .ok [a + (n : Int) * hourSec]
  | .withinHours _, none => .error .missingAnchor
  | .dayBefore y mo d, _ =>
    .ok [(daysFromCivil y mo d - 1) * daySec + 9 * hourSec]

/-- Modelled from the spec: `resolve(spec, anchor)` of §4.1
(`scheduling/scheduler.py`, absent from the tree).  The spec string is
matched case-insensitively against the grammar; an unrecognized spec
fails with `InvalidTimingSpec`, a discharge-relative spec without an
anchor fails with `MissingAnchor`, and a result strictly before the
anchor fails with `PastSchedule` instead of being clamped. -/
def resolve (spec : String) (anchor : Option Int) :
    Except TimingError (List Int) :=
  match readTiming (lowerStr spec.toList) with
  | none => .error .invalidTimingSpec
  | some t =>
    match candidateTimes t anchor with
    | .error e => .error e
    | .ok ts =>
      match anchor with
      | some a => if ts.all fun x => a ≤ x then .ok ts else .error .pastSchedule
      | none => .ok ts

/-- A nonempty all-digit character run. -/
def DigitRun (ds : List Char) : Prop := ds ≠ [] ∧ ∀ c ∈ ds, isDigitC c = true

/-- The recognized grammar of §4.1, written from the spec's four
productions (to be compared with what `readTiming` accepts). -/
def RecognizedTiming (l : List Char) : Prop :=
  (∃ ds, DigitRun ds ∧ l = ds ++ hoursAfterTail) ∨
  (∃ ds ms, DigitRun ds ∧ DigitRun ms ∧
    l = dailyLead ++ ds ++ daysStartingMid ++ ms ++ hoursAfterTail) ∨
  (∃ ds, DigitRun ds ∧ l = withinLead ++ ds ++ hoursTail) ∨
  (∃ y1 y2 y3 y4 m1 m2 d1 d2,
    (∀ c ∈ [y1, y2, y3, y4, m1, m2, d1, d2], isDigitC c = true) ∧
    l = dayBeforeLead ++ [y1, y2, y3, y4, '-', m1, m2, '-', d1, d2])

/-! ### Call scheduling data model, store and worker

Modelled from the spec: `scheduling/models.py`, `scheduling/scheduler.py`
and `scheduling/worker.py` are referenced by the repository documentation
and operator scripts but absent from the tree, so the data model (§3),
the store operations (§4.2) and the worker retry policy (§4.3) are built
from the spec.  The single logical store is a list of items with unique
ids; its atomic conditional-update primitive is the claim transition. -/

/-- Call status enumeration (§3, §4.3). -/
inductive CallStatus where
  | pending
  | inProgress
  | completed
  | failed
  | cancelled
  deriving DecidableEq, Repr

/-- Call type enumeration (§3). -/
inductive CallType where
  | dischargeReminder
  | wellnessCheck
  | escalation
  deriving DecidableEq, Repr

/-- One planned outbound call (`CallScheduleItem`, §3). -/
structure CallScheduleItem where
  id : String
  patientId : String
  patientPhone : String
  scheduledTime : Int
  callType : CallType
  priority : Int
  llmPrompt : String
  status : CallStatus
  attemptCount : Nat
  maxAttempts : Nat
  relatedOrderId : Option String
  metadata : List (String × String)
  deriving DecidableEq, Repr

/-- The status state graph of §4.3: `PENDING → IN_PROGRESS`,
`IN_PROGRESS → COMPLETED | FAILED | PENDING`, `PENDING → CANCELLED`;
no edge leaves `COMPLETED`, `FAILED` or `CANCELLED`. -/
def allowedTransition : CallStatus → CallStatus → Bool
  | .pending, .inProgress => true
  | .inProgress, .completed => true
  | .inProgress, .failed => true
  | .inProgress, .pending => true
  | .pending, .cancelled => true
  | _, _ => false

/-- Normalized phone-number format (§3): a `+` followed by a nonempty
digit run. -/
def normalizedPhone (s : String) : Bool :=
  match s.toList with
  | [] => false
  | c :: rest => c = '+' && rest ≠ [] && rest.all isDigitC

/-- Creation-time validation of §3: the phone is normalized, the prompt
is nonempty, and the retry bookkeeping starts fresh — a new item has been
attempted zero times and allows at least one attempt. -/
def validNewItem (it : CallScheduleItem) : Bool :=
  normalizedPhone it.patientPhone && it.llmPrompt ≠ "" &&
  it.attemptCount = 0 && 0 < it.maxAttempts

/-- The single logical store. -/
abbrev Store : Type := List CallScheduleItem

/-- Looks up the item holding id `i`. -/
def lookupId (i : String) (s : Store) : Option CallScheduleItem :=
  List.find? (fun it => it.id == i) s

/-- Rewrites the item holding id `i` through `f`, leaving every other
item in place. -/
def replaceFirst (i : String) (f : CallScheduleItem → CallScheduleItem) :
    Store → Store
  | [] => []
  | it :: rest =>
    if it.id == i then f it :: rest else it :: replaceFirst i f rest

/-- `schedule_call(item)` of §4.2: persists a new item and returns
`true`; returns `false` with no partial write when an item with the same
id already exists (idempotent insert). -/
def scheduleCall (it : CallScheduleItem) (s : Store) : Bool × Store :=
  if (lookupId it.id s).isSome then (false, s) else (true, s ++ [it])

/-- Error taxonomy of the store operations (§7). -/
inductive SchedulerError where
  | invalidTransition
  | notFound
  deriving DecidableEq, Repr

/-- Writes a status into an item. -/
def setStatus (ns : CallStatus) (it : CallScheduleItem) : CallScheduleItem :=
  { it with status := ns }

/-- `update_call_status(id, new_status, note)` of §4.2: validates the
requested change against the state graph and rejects with
`InvalidTransition` otherwise (the store is untouched on rejection). -/
def updateCallStatus (i : String) (ns : CallStatus) (_note : String)
    (s : Store) : Except SchedulerError Store :=
  match lookupId i s with
  | none => .error .notFound
  | some it =>
    if allowedTransition it.status ns then
      .ok (replaceFirst i (setStatus ns) s)
    else .error .invalidTransition

/-- The claim transition on one item: `PENDING → IN_PROGRESS`, identity
on every other status. -/
def claimItem (it : CallScheduleItem) : CallScheduleItem :=
  if it.status = .pending then { it with status := .inProgress } else it

/-- The worker's exclusive claim (§4.3, §5): the store's atomic
conditional update succeeds exactly when the item is `PENDING`; a failed
claim leaves the store untouched and the loser drops the job. -/
def claimCall (i : String) (s : Store) : Bool × Store :=
  match lookupId i s with
  | some it =>
    if it.status = .pending then (true, replaceFirst i claimItem s)
    else (false, s)
  | none => (false, s)

/-- Exponential backoff delay (§4.3): `base_delay * 2^attempt_count`
capped at a maximum interval. -/
def backoffDelay (baseDelay maxInterval : Int) (n : Nat) : Int :=
  min (baseDelay * 2 ^ n) maxInterval

/-- Worker handling of a transient outcome (busy / no-answer / transient
network error, §4.3) on a claimed item: increment `attempt_count`; while
attempts remain, reschedule by backoff and return the item to `PENDING`;
otherwise the item fails permanently. -/
def handleTransient (now baseDelay maxInterval : Int)
    (it : CallScheduleItem) : CallScheduleItem :=
  if it.status = .inProgress then
    if it.attemptCount + 1 < it.maxAttempts then
      { it with attemptCount := it.attemptCount + 1, status := .pending,
                scheduledTime := now + backoffDelay baseDelay maxInterval
                  (it.attemptCount + 1) }
    else
      { it with attemptCount := it.attemptCount + 1, status := .failed }
  else it

/-- Store-level write-back of a transient outcome. -/
def workerTransient (i : String) (now baseDelay maxInterval : Int)
    (s : Store) : Store :=
  replaceFirst i (handleTransient now baseDelay maxInterval) s

/-- One full retry cycle of one item as the worker sees it: an exclusive
claim followed by a transient outcome. -/
def transientCycle (now baseDelay maxInterval : Int)
    (it : CallScheduleItem) : CallScheduleItem :=
  handleTransient now baseDelay maxInterval (claimItem it)

/-- One operation against the store: scheduling a validated new item, a
status update through the state graph, a worker claim, or a worker
transient write-back. -/
inductive Step : Store → Store → Prop where
  | schedule (it : CallScheduleItem) (b : Bool) (s s' : Store) :
      validNewItem it = true → scheduleCall it s = (b, s') → Step s s'
  | update (i : String) (ns : CallStatus) (note : String) (s s' : Store) :
      updateCallStatus i ns note s = .ok s' → Step s s'
  | claim (i : String) (b : Bool) (s s' : Store) :
      claimCall i s = (b, s') → Step s s'
  | transient (i : String) (now baseDelay maxInterval : Int) (s : Store) :
      Step s (workerTransient i now baseDelay maxInterval s)

/-- Stores reachable from the empty store by store operations. -/
inductive Reachable : Store → Prop where
  | init : Reachable []
  | step {s s' : Store} : Reachable s → Step s s' → Reachable s'

/-- The retry-bookkeeping invariant of one item: `attempt_count` never
exceeds `max_attempts`, and an item still eligible for attempts
(`PENDING` or `IN_PROGRESS`) has attempts left. -/
def ItemInv (it : CallScheduleItem) : Prop :=
  it.attemptCount ≤ it.maxAttempts ∧
  ((it.status = .pending ∨ it.status = .inProgress) →
    it.attemptCount < it.maxAttempts)

/-- The store-wide invariant. -/
def StoreInv (s : Store) : Prop := ∀ it ∈ s, ItemInv it

/-- First utterance of the spec's §8 transcript scenario. -/
def utt1 : String := "We have Joseph."

/-- Second utterance of the spec's §8 transcript scenario. -/
def utt2 : String := "Take two Tylenol every four hours."

/-- Third utterance of the spec's §8 transcript scenario. -/
def utt3 : String :=
  "That" ++ String.singleton apos ++ "s all the instructions."

/-! ## Helper lemmas -/

theorem leadsWith_iff (p l : List Char) :
    leadsWith p l = true ↔ ∃ t, l = p ++ t := by
  induction p generalizing l with
  | nil => simp [leadsWith]
  | cons c cs ih =>
    cases l with
    | nil => simp [leadsWith]
    | cons d ds =>
      simp only [leadsWith, Bool.and_eq_true, beq_iff_eq, ih,
        List.cons_append, List.cons.injEq]
      constructor
      · rintro ⟨rfl, t, rfl⟩
        exact ⟨t, rfl, rfl⟩
      · rintro ⟨t, rfl, rfl⟩
        exact ⟨rfl, t, rfl⟩

theorem occurs_cons (p : List Char) (c : Char) (cs : List Char) :
    Occurs p (c :: cs) ↔ (∃ t, c :: cs = p ++ t) ∨ Occurs p cs := by
  constructor
  · rintro ⟨a, b, h⟩
    cases a with
    | nil => exact Or.inl ⟨b, by simpa using h⟩
    | cons x xs =>
      simp only [List.cons_append, List.cons.injEq, List.append_assoc] at h
      exact Or.inr ⟨xs, b, by simp [h.2]⟩
  · rintro (⟨t, h⟩ | ⟨a, b, h⟩)
    · exact ⟨[], t, by simpa using h⟩
    · exact ⟨c :: a, b, by simp [h]⟩

theorem hasSub_iff (p l : List Char) : hasSub p l = true ↔ Occurs p l := by
  induction l with
  | nil =>
    simp only [hasSub, leadsWith_iff, Occurs]
    constructor
    · rintro ⟨t, h⟩
      exact ⟨[], t, by simpa using h⟩
    · rintro ⟨a, b, h⟩
      refine ⟨b, ?_⟩
      rcases List.append_eq_nil.mp h.symm with ⟨h1, h2⟩
      rcases List.append_eq_nil.mp h1 with ⟨rfl, rfl⟩
      simpa using h2.symm
  | cons c cs ih =>
    rw [hasSub, occurs_cons, Bool.or_eq_true, leadsWith_iff, ih]

theorem mayaThenListening_occurs (l : List Char) :
    mayaThenListening l = true → Occurs mayaPat l := by
  induction l with
  | nil => simp [mayaThenListening]
  | cons c cs ih =>
    intro h
    rw [mayaThenListening, Bool.or_eq_true, Bool.and_eq_true] at h
    rcases h with ⟨hl, _⟩ | h
    · rcases (leadsWith_iff _ _).mp hl with ⟨t, ht⟩
      exact ⟨[], t, by simpa using ht⟩
    · exact (occurs_cons _ _ _).mpr (Or.inr (ih h))

/-! ## Concrete sessions used as inputs -/

/-- A concrete session sitting in passive-listening mode with nothing
collected yet. -/
def sdPassive : SessionData :=
  { patientName := some "Joseph", patientLanguage := some "English",
    workflowMode := "passive_listening", isPassiveMode := true,
    collectedInstructions := [], roomPeople := ["Doctor"],
    sessionId := "s1" }

/-! ## Claim theorems: workflow session -/

/-- C1 (code bug evidence): invoking the exit-passive-listening tool on a
session in `passive_listening` mode clears the passive flag but writes
the literal mode string `active`, which is not `active_translation` and
is outside the four modes enumerated by `SessionDataSchema`. -/
theorem exitPassive_writes_mode_outside_enum :
    (exitPassiveListening sdPassive).isPassiveMode = false ∧
    (exitPassiveListening sdPassive).workflowMode = "active" ∧
    (exitPassiveListening sdPassive).workflowMode ∉ workflowModes ∧
    (exitPassiveListening sdPassive).workflowMode ≠ "active_translation" := by
  refine ⟨rfl, rfl, ?_, ?_⟩ <;> decide

/-- C2: on the transcript `[utt1, utt2, utt3]` the exit-trigger detector
answers `false`, `false`, `true`, so a passive-listening session whose
classifier treats the second utterance (and not the first) as an
instruction ends passive listening exactly at the third utterance with
exactly the second utterance collected. -/
theorem passive_scenario_transcript (isInstr : String → Bool)
    (sd : SessionData) (now : Nat)
    (_hmode : sd.workflowMode = "passive_listening")
    (hempty : sd.collectedInstructions = [])
    (h1 : isInstr utt1 = false) (h2 : isInstr utt2 = true) :
    containsPassiveModeExitTrigger utt1 = false ∧
    containsPassiveModeExitTrigger utt2 = false ∧
    containsPassiveModeExitTrigger utt3 = true ∧
    (runPassiveListening isInstr now sd
        [utt1, utt2, utt3]).collectedInstructions = [⟨utt2, "general", now⟩] ∧
    (runPassiveListening isInstr now sd [utt1, utt2, utt3]).isPassiveMode
      = false := by
  have e1 : containsPassiveModeExitTrigger utt1 = false := by decide
  have e2 : containsPassiveModeExitTrigger utt2 = false := by decide
  have e3 : containsPassiveModeExitTrigger utt3 = true := by decide
  refine ⟨e1, e2, e3, ?_, ?_⟩ <;>
    simp [runPassiveListening, e1, e2, e3, h1, h2, exitPassiveListening,
      collectInstruction, hempty]

/-- Witness for C2 at a concrete classifier and session. -/
theorem passive_scenario_transcript_witness :
    (runPassiveListening (fun u => u == utt2) 7 sdPassive
        [utt1, utt2, utt3]).collectedInstructions
      = [⟨utt2, "general", 7⟩] :=
  (passive_scenario_transcript (fun u => u == utt2) sdPassive 7 rfl rfl
    (by decide) (by decide)).2.2.2.1

/-- C9 counterexample: called with the empty-string category (a provided
category), `collect_instruction` does not append an entry carrying that
category — the JavaScript falsy default replaces it with `general`. -/
theorem collectInstruction_empty_category_diverges :
    (collectInstruction sdPassive "Walk twice daily" (some "") 5).collectedInstructions
      ≠ sdPassive.collectedInstructions ++ [⟨"Walk twice daily", "", 5⟩] := by
  decide

/-- C9 (amended): every invocation of `collect_instruction` appends
exactly one `{text, category, timestamp}` entry at the end of
`collectedInstructions`, with the category defaulting to `general` when
it is omitted or is the empty string (the JavaScript falsy default);
every previously collected entry and every other session field is
unchanged. -/
theorem collectInstruction_appends_and_frames (sd : SessionData)
    (text : String) (category : Option String) (now : Nat) :
    (collectInstruction sd text category now).collectedInstructions
      = sd.collectedInstructions ++
        [⟨text,
          (match category with
           | none => "general"
           | some c => if c = "" then "general" else c), now⟩] ∧
    (collectInstruction sd text category now).patientName = sd.patientName ∧
    (collectInstruction sd text category now).patientLanguage
      = sd.patientLanguage ∧
    (collectInstruction sd text category now).workflowMode
      = sd.workflowMode ∧
    (collectInstruction sd text category now).isPassiveMode
      = sd.isPassiveMode ∧
    (collectInstruction sd text category now).roomPeople = sd.roomPeople ∧
    (collectInstruction sd text category now).sessionId = sd.sessionId :=
  ⟨rfl, rfl, rfl, rfl, rfl, rfl, rfl⟩

/-- C10: the exit-trigger detector is exactly a case-insensitive
substring match — it answers `true` precisely when the lowered text
contains one of the eight patterns `maya`, `translate`, `capture`,
`that's all`, `any questions`, `we're done`, `did you get`,
`we're all set` anywhere (the ninth source regex `maya.*listening` is
subsumed by `maya`). -/
theorem exitTrigger_iff_substring (s : String) :
    containsPassiveModeExitTrigger s = true ↔
      (Occurs mayaPat (lowerStr s.toList) ∨
       Occurs translatePat (lowerStr s.toList) ∨
       Occurs capturePat (lowerStr s.toList) ∨
       Occurs thatsAllPat (lowerStr s.toList) ∨
       Occurs anyQuestionsPat (lowerStr s.toList) ∨
       Occurs wereDonePat (lowerStr s.toList) ∨
       Occurs didYouGetPat (lowerStr s.toList) ∨
       Occurs wereAllSetPat (lowerStr s.toList)) := by
  have hm := mayaThenListening_occurs (lowerStr s.toList)
  unfold containsPassiveModeExitTrigger
  simp only [Bool.or_eq_true, hasSub_iff]
  tauto

/-! ## Store helper lemmas -/

theorem lookupId_cons_pos {i : String} {a : CallScheduleItem} (s : Store)
    (h : (a.id == i) = true) : lookupId i (a :: s) = some a := by
  simp [lookupId, List.find?_cons, h]

theorem lookupId_cons_neg {i : String} {a : CallScheduleItem} (s : Store)
    (h : (a.id == i) = false) : lookupId i (a :: s) = lookupId i s := by
  simp [lookupId, List.find?_cons, h]

theorem lookupId_append_some {i : String} {s : Store}
    {x : CallScheduleItem} (t : Store) (h : lookupId i s = some x) :
    lookupId i (s ++ t) = some x := by
  induction s with
  | nil => simp [lookupId] at h
  | cons a rest ih =>
    cases ha : (a.id == i) with
    | true =>
      rw [lookupId_cons_pos rest ha] at h
      rw [List.cons_append, lookupId_cons_pos _ ha]
      exact h
    | false =>
      rw [lookupId_cons_neg rest ha] at h
      rw [List.cons_append, lookupId_cons_neg _ ha]
      exact ih h

theorem lookupId_append_none {i : String} {s : Store} (t : Store)
    (h : lookupId i s = none) : lookupId i (s ++ t) = lookupId i t := by
  induction s with
  | nil => simp [lookupId]
  | cons a rest ih =>
    cases ha : (a.id == i) with
    | true => rw [lookupId_cons_pos rest ha] at h; exact absurd h (by simp)
    | false =>
      rw [lookupId_cons_neg rest ha] at h
      rw [List.cons_append, lookupId_cons_neg _ ha]
      exact ih h

theorem lookup_replaceFirst_self {i : String} {s : Store}
    {f : CallScheduleItem → CallScheduleItem}
    (hid : ∀ y, (f y).id = y.id) :
    lookupId i (replaceFirst i f s) = (lookupId i s).map f := by
  induction s with
  | nil => simp [lookupId, replaceFirst]
  | cons a rest ih =>
    rw [replaceFirst]
    cases ha : (a.id == i) with
    | true =>
      have hfa : ((f a).id == i) = true := by rw [hid]; exact ha
      simp only [ha, if_true]
      rw [lookupId_cons_pos _ hfa, lookupId_cons_pos _ ha]
      rfl
    | false =>
      simp only [ha, Bool.false_eq_true, if_false]
      rw [lookupId_cons_neg _ ha, lookupId_cons_neg _ ha]
      exact ih

theorem lookup_replaceFirst_ne {i j : String} {s : Store}
    {f : CallScheduleItem → CallScheduleItem}
    (hid : ∀ y, (f y).id = y.id) (hne : j ≠ i) :
    lookupId j (replaceFirst i f s) = lookupId j s := by
  induction s with
  | nil => simp [replaceFirst]
  | cons a rest ih =>
    rw [replaceFirst]
    cases ha : (a.id == i) with
    | true =>
      have haj : (a.id == j) = false := by
        have : a.id = i := by simpa using ha
        simp [this, Ne.symm hne]
      have hfj : ((f a).id == j) = false := by rw [hid]; exact haj
      simp only [ha, if_true]
      rw [lookupId_cons_neg _ hfj, lookupId_cons_neg _ haj]
    | false =>
      simp only [ha, Bool.false_eq_true, if_false]
      cases hj : (a.id == j) with
      | true => rw [lookupId_cons_pos _ hj, lookupId_cons_pos _ hj]
      | false => rw [lookupId_cons_neg _ hj, lookupId_cons_neg _ hj]; exact ih

theorem mem_replaceFirst {i : String} {s : Store}
    {f : CallScheduleItem → CallScheduleItem} {x : CallScheduleItem}
    (hx : x ∈ replaceFirst i f s) :
    x ∈ s ∨ ∃ y, lookupId i s = some y ∧ y ∈ s ∧ x = f y := by
  induction s with
  | nil => simp [replaceFirst] at hx
  | cons a rest ih =>
    rw [replaceFirst] at hx
    cases ha : (a.id == i) with
    | true =>
      rw [ha, if_pos rfl] at hx
      rcases List.mem_cons.mp hx with h | h
      · exact Or.inr ⟨a, lookupId_cons_pos rest ha, List.mem_cons_self a rest, h⟩
      · exact Or.inl (List.mem_cons_of_mem a h)
    | false =>
      rw [ha] at hx
      simp only [Bool.false_eq_true, if_false] at hx
      rcases List.mem_cons.mp hx with h | h
      · exact Or.inl (h ▸ List.mem_cons_self a rest)
      · rcases ih h with h' | ⟨y, hy, hmem, hxy⟩
        · exact Or.inl (List.mem_cons_of_mem a h')
        · exact Or.inr ⟨y, by rw [lookupId_cons_neg rest ha]; exact hy,
            List.mem_cons_of_mem a hmem, hxy⟩

theorem claimItem_id (y : CallScheduleItem) : (claimItem y).id = y.id := by
  rw [claimItem]; split <;> rfl

theorem handleTransient_id (now b c : Int) (y : CallScheduleItem) :
    (handleTransient now b c y).id = y.id := by
  rw [handleTransient]
  split
  · split <;> rfl
  · rfl

theorem setStatus_id (ns : CallStatus) (y : CallScheduleItem) :
    (setStatus ns y).id = y.id := rfl

/-- A concrete well-formed pending call item. -/
def itemA : CallScheduleItem :=
  { id := "call-1", patientId := "p-1", patientPhone := "+14255550100",
    scheduledTime := 1000, callType := .wellnessCheck, priority := 2,
    llmPrompt := "Check in with the patient", status := .pending,
    attemptCount := 0, maxAttempts := 3, relatedOrderId := none,
    metadata := [] }

/-! ## Claim theorems: scheduler store -/

/-- C7: `schedule_call` is idempotent on id — on a store free of the id,
the first call persists the item and returns `true`, a second call with
an item of the same id returns `false` and leaves the store untouched,
and exactly one record with that id is in the store. -/
theorem scheduleCall_idempotent (it1 it2 : CallScheduleItem) (s : Store)
    (hid : it2.id = it1.id) (hfresh : lookupId it1.id s = none) :
    (scheduleCall it1 s).1 = true ∧
    (scheduleCall it2 (scheduleCall it1 s).2).1 = false ∧
    (scheduleCall it2 (scheduleCall it1 s).2).2 = (scheduleCall it1 s).2 ∧
    ((scheduleCall it1 s).2.filter fun x => x.id == it1.id).length = 1 := by
  have h1 : scheduleCall it1 s = (true, s ++ [it1]) := by
    rw [scheduleCall, hfresh]; rfl
  have h2 : lookupId it2.id (s ++ [it1]) = some it1 := by
    rw [hid, lookupId_append_none _ hfresh, lookupId, List.find?]
    simp
  have h3 : scheduleCall it2 (s ++ [it1]) = (false, s ++ [it1]) := by
    rw [scheduleCall, h2]; rfl
  have h4 : ∀ x ∈ s, (x.id == it1.id) = false := by
    intro x hx
    have := List.find?_eq_none.mp hfresh x hx
    simpa using this
  refine ⟨by rw [h1], by rw [h1, h3], by rw [h1, h3], ?_⟩
  rw [h1]
  have : s.filter (fun x => x.id == it1.id) = [] :=
    List.filter_eq_nil_iff.mpr (by intro a ha; simp [h4 a ha])
  rw [List.filter_append, this]
  simp

/-- Witness for C7 on the empty store. -/
theorem scheduleCall_idempotent_witness :
    (scheduleCall itemA (scheduleCall itemA ([] : Store)).2).1 = false :=
  (scheduleCall_idempotent itemA itemA [] rfl rfl).2.1

/-- C8: on an item observed `PENDING`, of two claim attempts (the two
workers' conditional updates, serialized by the store's atomic
primitive) exactly the first succeeds: it alone flips the item to
`IN_PROGRESS`, and the second attempt fails and leaves the store
untouched, so the loser drops the job. -/
theorem claim_exactly_one_wins (s : Store) (i : String)
    (it : CallScheduleItem) (hl : lookupId i s = some it)
    (hp : it.status = .pending) :
    (claimCall i s).1 = true ∧
    lookupId i (claimCall i s).2 = some (claimItem it) ∧
    (claimItem it).status = .inProgress ∧
    (claimCall i (claimCall i s).2).1 = false ∧
    (claimCall i (claimCall i s).2).2 = (claimCall i s).2 := by
  have h1 : claimCall i s = (true, replaceFirst i claimItem s) := by
    simp only [claimCall, hl]
    rw [if_pos hp]
  have h2 : lookupId i (replaceFirst i claimItem s) = some (claimItem it) := by
    rw [lookup_replaceFirst_self claimItem_id, hl]; rfl
  have h3 : (claimItem it).status = .inProgress := by
    rw [claimItem, if_pos hp]
  have h4 : claimCall i (replaceFirst i claimItem s)
      = (false, replaceFirst i claimItem s) := by
    simp only [claimCall, h2]
    rw [if_neg (by rw [h3]; exact fun h => nomatch h)]
  exact ⟨by rw [h1], by rw [h1]; exact h2, h3, by rw [h1, h4], by rw [h1, h4]⟩

/-- Witness for C8 on a one-item store. -/
theorem claim_exactly_one_wins_witness :
    (claimCall "call-1" [itemA]).1 = true ∧
    (claimCall "call-1" (claimCall "call-1" [itemA]).2).1 = false := by
  have h := claim_exactly_one_wins [itemA] "call-1" itemA (by rfl) rfl
  exact ⟨h.1, h.2.2.2.1⟩

theorem transientCycle_failed (now b c : Int) :
    ∀ (m : Nat) (it : CallScheduleItem), it.status = .pending →
      it.attemptCount + m = it.maxAttempts → 1 ≤ m →
      ((transientCycle now b c)^[m] it).status = .failed := by
  intro m
  induction m with
  | zero => intro it _ _ hm; omega
  | succ k ih =>
    intro it hp hc _
    have hclaim : claimItem it = { it with status := .inProgress } := by
      rw [claimItem, if_pos hp]
    rw [Function.iterate_succ_apply]
    rcases Nat.eq_zero_or_pos k with hk | hk
    · subst hk
      have hfull : ¬ it.attemptCount + 1 < it.maxAttempts := by omega
      rw [Function.iterate_zero_apply, transientCycle, hclaim,
        handleTransient, if_pos rfl, if_neg hfull]
    · have hlt : it.attemptCount + 1 < it.maxAttempts := by omega
      rw [transientCycle, hclaim, handleTransient, if_pos rfl, if_pos hlt]
      exact ih _ rfl (show it.attemptCount + 1 + k = it.maxAttempts by omega) hk

/-- C6: on a claimed (`IN_PROGRESS`) item a transient outcome increments
`attempt_count`; while `attempt_count < max_attempts` the item returns to
`PENDING` rescheduled by exponential backoff `base_delay * 2^attempt_count`
capped at `maxInterval`, and otherwise it becomes `FAILED`; hence a fresh
pending item subjected to `max_attempts` claim/transient cycles ends
`FAILED`, never `PENDING`. -/
theorem transient_retry_policy (it : CallScheduleItem)
    (now baseDelay maxInterval : Int) (hin : it.status = .inProgress) :
    ((handleTransient now baseDelay maxInterval it).attemptCount
        = it.attemptCount + 1 ∧
      (it.attemptCount + 1 < it.maxAttempts →
        (handleTransient now baseDelay maxInterval it).status = .pending ∧
        (handleTransient now baseDelay maxInterval it).scheduledTime
          = now + min (baseDelay * 2 ^ (it.attemptCount + 1)) maxInterval) ∧
      (¬ it.attemptCount + 1 < it.maxAttempts →
        (handleTransient now baseDelay maxInterval it).status = .failed)) ∧
    (∀ fresh : CallScheduleItem, fresh.status = .pending →
      fresh.attemptCount = 0 → 1 ≤ fresh.maxAttempts →
      ((transientCycle now baseDelay maxInterval)^[fresh.maxAttempts]
          fresh).status = .failed ∧
      ((transientCycle now baseDelay maxInterval)^[fresh.maxAttempts]
          fresh).status ≠ .pending) := by
  constructor
  · rw [handleTransient, if_pos hin]
    refine ⟨?_, ?_, ?_⟩
    · split <;> rfl
    · intro hlt
      rw [if_pos hlt]
      exact ⟨rfl, rfl⟩
    · intro hge
      rw [if_neg hge]
  · intro fresh hp h0 hm
    have hfail := transientCycle_failed now baseDelay maxInterval
      fresh.maxAttempts fresh hp (by omega) hm
    exact ⟨hfail, by rw [hfail]; exact fun h => nomatch h⟩

/-- Witness for C6: a fresh three-attempt item fails after three
transient cycles, and a single transient outcome on a claimed item
increments the attempt count. -/
theorem transient_retry_policy_witness :
    ((transientCycle 0 60 3600)^[3] itemA).status = .failed ∧
    (handleTransient 0 60 3600 (claimItem itemA)).attemptCount = 1 := by
  have h := transient_retry_policy (claimItem itemA) 0 60 3600 (by decide)
  exact ⟨(h.2 itemA rfl rfl (by decide)).1, h.1.1⟩

/-! ## Invariant preservation -/

theorem itemInv_setStatus {y : CallScheduleItem} {ns : CallStatus}
    (hy : ItemInv y) (ha : allowedTransition y.status ns = true) :
    ItemInv (setStatus ns y) := by
  obtain ⟨hle, hstrict⟩ := hy
  refine ⟨hle, fun hns => hstrict ?_⟩
  have hns' : ns = .pending ∨ ns = .inProgress := by
    simpa [setStatus] using hns
  cases hs : y.status <;> rcases hns' with rfl | rfl <;>
    rw [hs] at ha <;> simp [allowedTransition] at ha <;> simp

theorem itemInv_claimItem {y : CallScheduleItem} (hy : ItemInv y) :
    ItemInv (claimItem y) := by
  obtain ⟨hle, hstrict⟩ := hy
  rw [claimItem]
  split
  · rename_i h
    exact ⟨hle, fun _ => hstrict (Or.inl h)⟩
  · exact ⟨hle, hstrict⟩

theorem itemInv_handleTransient {y : CallScheduleItem} (now b c : Int)
    (hy : ItemInv y) : ItemInv (handleTransient now b c y) := by
  obtain ⟨hle, hstrict⟩ := hy
  rw [handleTransient]
  split
  · rename_i hin
    have hcount : y.attemptCount < y.maxAttempts := hstrict (Or.inr hin)
    split
    · rename_i hlt
      exact ⟨show y.attemptCount + 1 ≤ y.maxAttempts by omega, fun _ => hlt⟩
    · refine ⟨show y.attemptCount + 1 ≤ y.maxAttempts by omega, fun h => ?_⟩
      rcases h with h | h <;> exact nomatch h
  · exact ⟨hle, hstrict⟩

theorem storeInv_step {s s' : Store} (hinv : StoreInv s) (hs : Step s s') :
    StoreInv s' := by
  cases hs with
  | schedule it0 b s s' hv hsc =>
    rw [scheduleCall] at hsc
    split at hsc
    · injection hsc with _ h2
      subst h2
      exact hinv
    · injection hsc with _ h2
      subst h2
      intro x hx
      rcases List.mem_append.mp hx with h | h
      · exact hinv x h
      · have hxit : x = it0 := by simpa using h
        subst hxit
        simp only [validNewItem, Bool.and_eq_true, decide_eq_true_eq] at hv
        exact ⟨by omega, fun _ => by omega⟩
  | update i0 ns note s s' hupd =>
    rw [updateCallStatus] at hupd
    cases hl0 : lookupId i0 s with
    | none => simp only [hl0] at hupd; exact nomatch hupd
    | some it0 =>
      simp only [hl0] at hupd
      split at hupd
      · rename_i hallow
        injection hupd with h2
        subst h2
        intro x hx
        rcases mem_replaceFirst hx with h | ⟨y, hy, hmem, rfl⟩
        · exact hinv x h
        · have hyit : y = it0 := by
            rw [hy] at hl0
            injection hl0
          subst hyit
          exact itemInv_setStatus (hinv y hmem) hallow
      · exact nomatch hupd
  | claim i0 b s s' hcl =>
    rw [claimCall] at hcl
    cases hl0 : lookupId i0 s with
    | none =>
      simp only [hl0] at hcl
      injection hcl with _ h2
      subst h2
      exact hinv
    | some it0 =>
      simp only [hl0] at hcl
      split at hcl
      · injection hcl with _ h2
        subst h2
        intro x hx
        rcases mem_replaceFirst hx with h | ⟨y, _, hmem, rfl⟩
        · exact hinv x h
        · exact itemInv_claimItem (hinv y hmem)
      · injection hcl with _ h2
        subst h2
        exact hinv
  | transient i0 now bd mi s =>
    intro x hx
    rw [workerTransient] at hx
    rcases mem_replaceFirst hx with h | ⟨y, _, hmem, rfl⟩
    · exact hinv x h
    · exact itemInv_handleTransient _ _ _ (hinv y hmem)

theorem reachable_storeInv {s : Store} (h : Reachable s) : StoreInv s := by
  induction h with
  | init => intro x hx; exact absurd hx (List.not_mem_nil x)
  | step _ hs ih => exact storeInv_step ih hs

theorem step_status_edges {s s' : Store} (hs : Step s s') :
    ∀ (i : String) (it it' : CallScheduleItem), lookupId i s = some it →
      lookupId i s' = some it' →
      it'.status = it.status ∨ allowedTransition it.status it'.status = true := by
  cases hs with
  | schedule it0 b s s' hv hsc =>
    intro i it it' hl hl'
    rw [scheduleCall] at hsc
    split at hsc
    · injection hsc with _ h2
      subst h2
      rw [hl] at hl'
      injection hl' with h
      subst h
      exact Or.inl rfl
    · injection hsc with _ h2
      subst h2
      rw [lookupId_append_some _ hl] at hl'
      injection hl' with h
      subst h
      exact Or.inl rfl
  | update i0 ns note s s' hupd =>
    intro i it it' hl hl'
    rw [updateCallStatus] at hupd
    cases hl0 : lookupId i0 s with
    | none => simp only [hl0] at hupd; exact nomatch hupd
    | some it0 =>
      simp only [hl0] at hupd
      split at hupd
      · rename_i hallow
        injection hupd with h2
        subst h2
        by_cases hii : i = i0
        · subst hii
          rw [lookup_replaceFirst_self (setStatus_id ns), hl] at hl'
          rw [hl] at hl0
          injection hl0 with h0
          subst h0
          injection hl' with h
          subst h
          exact Or.inr hallow
        · rw [lookup_replaceFirst_ne (setStatus_id ns) hii, hl] at hl'
          injection hl' with h
          subst h
          exact Or.inl rfl
      · exact nomatch hupd
  | claim i0 b s s' hcl =>
    intro i it it' hl hl'
    rw [claimCall] at hcl
    cases hl0 : lookupId i0 s with
    | none =>
      simp only [hl0] at hcl
      injection hcl with _ h2
      subst h2
      rw [hl] at hl'
      injection hl' with h
      subst h
      exact Or.inl rfl
    | some it0 =>
      simp only [hl0] at hcl
      split at hcl
      · rename_i hpend
        injection hcl with _ h2
        subst h2
        by_cases hii : i = i0
        · subst hii
          rw [lookup_replaceFirst_self claimItem_id, hl] at hl'
          rw [hl] at hl0
          injection hl0 with h0
          subst h0
          injection hl' with h
          subst h
          refine Or.inr ?_
          rw [claimItem, if_pos hpend, hpend]
          rfl
        · rw [lookup_replaceFirst_ne claimItem_id hii, hl] at hl'
          injection hl' with h
          subst h
          exact Or.inl rfl
      · injection hcl with _ h2
        subst h2
        rw [hl] at hl'
        injection hl' with h
        subst h
        exact Or.inl rfl
  | transient i0 now bd mi s =>
    intro i it it' hl hl'
    rw [workerTransient] at hl'
    by_cases hii : i = i0
    · subst hii
      rw [lookup_replaceFirst_self (handleTransient_id now bd mi), hl] at hl'
      injection hl' with h
      subst h
      rw [handleTransient]
      by_cases hin : it.status = .inProgress
      · rw [if_pos hin]
        split
        · refine Or.inr ?_
          rw [hin]
          rfl
        · refine Or.inr ?_
          rw [hin]
          rfl
      · rw [if_neg hin]
        exact Or.inl rfl
    · rw [lookup_replaceFirst_ne (handleTransient_id now bd mi) hii, hl] at hl'
      injection hl' with h
      subst h
      exact Or.inl rfl

/-- A concrete completed item (no transition may leave it). -/
def itemDone : CallScheduleItem := { itemA with status := .completed }

/-! ## Claim theorem: status state machine and retry invariant -/

/-- C5: across every store operation the status of an item changes only
along the §4.3 edges (`PENDING→IN_PROGRESS`, `IN_PROGRESS→COMPLETED`,
`IN_PROGRESS→FAILED`, `IN_PROGRESS→PENDING`, `PENDING→CANCELLED` — in
particular nothing leaves `COMPLETED`, `FAILED` or `CANCELLED`);
`update_call_status` rejects any other requested change with
`InvalidTransition`, leaving the store untouched; and on every reachable
store `attempt_count ≤ max_attempts` holds for every item. -/
theorem call_status_machine :
    (∀ s s' : Store, Step s s' → ∀ (i : String) (it it' : CallScheduleItem),
        lookupId i s = some it → lookupId i s' = some it' →
        it'.status = it.status ∨
          allowedTransition it.status it'.status = true) ∧
    (∀ (i : String) (ns : CallStatus) (note : String) (s : Store)
        (it : CallScheduleItem), lookupId i s = some it →
        allowedTransition it.status ns = false →
        updateCallStatus i ns note s = .error .invalidTransition) ∧
    (∀ s : Store, Reachable s →
        ∀ it ∈ s, it.attemptCount ≤ it.maxAttempts) := by
  refine ⟨fun s s' hs => step_status_edges hs, ?_, ?_⟩
  · intro i ns note s it hl hbad
    simp only [updateCallStatus, hl]
    rw [if_neg (by simp [hbad])]
  · intro s hr it hmem
    exact (reachable_storeInv hr it hmem).1

/-- Witness for C5: a `COMPLETED → PENDING` request is rejected as an
invalid transition; a one-item store reached by scheduling a validated
item satisfies the retry-bookkeeping invariant; and a worker claim moves
a pending item along an allowed edge. -/
theorem call_status_machine_witness :
    (updateCallStatus "call-1" CallStatus.pending "note" [itemDone]
      = .error .invalidTransition) ∧
    itemA.attemptCount ≤ itemA.maxAttempts ∧
    ((claimItem itemA).status = itemA.status ∨
      allowedTransition itemA.status (claimItem itemA).status = true) := by
  refine ⟨?_, ?_, ?_⟩
  · exact call_status_machine.2.1 "call-1" CallStatus.pending "note"
      [itemDone] itemDone rfl rfl
  · exact call_status_machine.2.2 [itemA]
      (Reachable.step Reachable.init
        (Step.schedule itemA true [] [itemA] (by decide) rfl))
      itemA (by simp)
  · exact call_status_machine.1 [itemA] _
      (Step.claim "call-1" true [itemA] _ rfl) "call-1" itemA
      (claimItem itemA) rfl rfl

/-! ## Timing-resolver lemmas -/

theorem stripLead_iff (p : List Char) :
    ∀ l r : List Char, stripLead p l = some r ↔ l = p ++ r := by
  induction p with
  | nil =>
    intro l r
    simp [stripLead, eq_comm]
  | cons c cs ih =>
    intro l r
    cases l with
    | nil => simp [stripLead]
    | cons d ds =>
      rw [stripLead]
      by_cases h : c = d
      · rw [if_pos h, ih]
        subst h
        simp
      · rw [if_neg h]
        simp [List.cons_append]
        intro hdc
        exact absurd hdc.symm h

theorem underscore_not_digit : isDigitC '_' = false := by decide

theorem lowerChar_digit {c : Char} (h : isDigitC c = true) :
    lowerChar c = c := by
  rw [lowerChar, if_neg]
  simp only [isDigitC, Bool.and_eq_true, decide_eq_true_eq] at h
  omega

theorem lowerStr_digits {ds : List Char}
    (h : ∀ c ∈ ds, isDigitC c = true) : lowerStr ds = ds := by
  induction ds with
  | nil => rfl
  | cons c cs ih =>
    rw [lowerStr, List.map_cons, lowerChar_digit (h c (List.mem_cons_self c cs))]
    have := ih fun x hx => h x (List.mem_cons_of_mem _ hx)
    rw [lowerStr] at this
    rw [this]

theorem takeWhile_run {ds : List Char} (rest : List Char)
    (hds : ∀ c ∈ ds, isDigitC c = true)
    (hrest : ∀ c, rest.head? = some c → isDigitC c = false) :
    (ds ++ rest).takeWhile isDigitC = ds ∧
    (ds ++ rest).dropWhile isDigitC = rest := by
  induction ds with
  | nil =>
    simp only [List.nil_append]
    cases rest with
    | nil => exact ⟨rfl, rfl⟩
    | cons c cs =>
      have hc := hrest c rfl
      rw [List.takeWhile_cons, List.dropWhile_cons]
      simp [hc]
  | cons d ds' ih =>
    have hd := hds d (List.mem_cons_self d ds')
    have ih' := ih fun c hc => hds c (List.mem_cons_of_mem _ hc)
    simp only [List.cons_append, List.takeWhile_cons, List.dropWhile_cons, hd]
    simp [ih'.1, ih'.2]

theorem head_hoursAfterTail :
    ∀ c, hoursAfterTail.head? = some c → isDigitC c = false := by
  intro c hc
  injection hc with h
  exact h ▸ underscore_not_digit

theorem head_daysStartingMid (x : List Char) :
    ∀ c, (daysStartingMid ++ x).head? = some c → isDigitC c = false := by
  intro c hc
  have hc' : some '_' = some c := hc
  injection hc' with h
  exact h ▸ underscore_not_digit

theorem head_hoursTail :
    ∀ c, hoursTail.head? = some c → isDigitC c = false := by
  intro c hc
  injection hc with h
  exact h ▸ underscore_not_digit

theorem readHoursAfter_run {ds : List Char} (h : DigitRun ds) :
    readHoursAfter (ds ++ hoursAfterTail) = some (digitsToNat ds) := by
  obtain ⟨hne, hdig⟩ := h
  obtain ⟨ht, hd⟩ := takeWhile_run hoursAfterTail hdig head_hoursAfterTail
  rw [readHoursAfter, if_pos]
  · rw [ht]
  · rw [ht, hd]
    exact ⟨hne, rfl⟩

theorem readDaily_run {ds ms : List Char} (hds : DigitRun ds)
    (hms : DigitRun ms) :
    readDaily (dailyLead ++ ds ++ daysStartingMid ++ ms ++ hoursAfterTail)
      = some (digitsToNat ds, digitsToNat ms) := by
  obtain ⟨hdne, hddig⟩ := hds
  obtain ⟨hmne, hmdig⟩ := hms
  have hsplit1 : stripLead dailyLead
      (dailyLead ++ ds ++ daysStartingMid ++ ms ++ hoursAfterTail)
      = some (ds ++ (daysStartingMid ++ (ms ++ hoursAfterTail))) :=
    (stripLead_iff dailyLead _ _).mpr (by simp)
  obtain ⟨ht1, hd1⟩ := takeWhile_run
    (daysStartingMid ++ (ms ++ hoursAfterTail))
    hddig (head_daysStartingMid _)
  have hsplit2 : stripLead daysStartingMid
      (daysStartingMid ++ (ms ++ hoursAfterTail))
      = some (ms ++ hoursAfterTail) :=
    (stripLead_iff daysStartingMid _ _).mpr rfl
  obtain ⟨ht2, hd2⟩ := takeWhile_run hoursAfterTail
    hmdig head_hoursAfterTail
  rw [readDaily]
  simp only [hsplit1]
  rw [if_neg (by rw [ht1]; exact fun h => hdne h)]
  simp only [hd1, hsplit2]
  rw [if_pos]
  · rw [ht1, ht2]
  · rw [ht2, hd2]
    exact ⟨hmne, rfl⟩

theorem stripLead_digit_head {p : List Char} {c0 : Char} {ds rest : List Char}
    (hp : p = c0 :: (p.drop 1)) (hc0 : isDigitC c0 = false)
    (hds : DigitRun ds) :
    stripLead p (ds ++ rest) = none := by
  obtain ⟨hne, hdig⟩ := hds
  cases ds with
  | nil => exact absurd rfl hne
  | cons d ds' =>
    have hd := hdig d (List.mem_cons_self d ds')
    rw [hp, List.cons_append, stripLead, if_neg]
    intro h
    rw [h] at hc0
    rw [hd] at hc0
    exact nomatch hc0

theorem readTiming_hours_run {ds : List Char} (h : DigitRun ds) :
    readTiming (ds ++ hoursAfterTail) = some (.hoursAfter (digitsToNat ds)) := by
  have hdaily : readDaily (ds ++ hoursAfterTail) = none := by
    rw [readDaily, stripLead_digit_head rfl (by decide) h]
  rw [readTiming]
  simp only [hdaily, readHoursAfter_run h]

theorem readTiming_daily_run {ds ms : List Char} (hds : DigitRun ds)
    (hms : DigitRun ms) :
    readTiming (dailyLead ++ ds ++ daysStartingMid ++ ms ++ hoursAfterTail)
      = some (.dailyFor (digitsToNat ds) (digitsToNat ms)) := by
  rw [readTiming]
  simp only [readDaily_run hds hms]

theorem lowerStr_append (a b : List Char) :
    lowerStr (a ++ b) = lowerStr a ++ lowerStr b := List.map_append lowerChar a b

/-- C3: for every digit string `N` (any non-negative number) and every
anchor `a`, `resolve "<N>_hours_after_discharge"` returns exactly one
timestamp `a + N hours`, and
`resolve "daily_for_<N>_days_starting_<M>_hours_after_discharge"` returns
exactly the `N` timestamps `a + M hours + k·24h` for `k = 0..N-1`, a
strictly increasing sequence. -/
theorem timing_resolver_relative (ds ms : List Char) (a : Int)
    (hds : DigitRun ds) (hms : DigitRun ms) :
    resolve (String.mk (ds ++ hoursAfterTail)) (some a)
      = .ok [a + (digitsToNat ds : Int) * hourSec] ∧
    resolve (String.mk
        (dailyLead ++ ds ++ daysStartingMid ++ ms ++ hoursAfterTail)) (some a)
      = .ok ((List.range (digitsToNat ds)).map
          fun k : Nat =>
            a + (digitsToNat ms : Int) * hourSec + (k : Int) * daySec) ∧
    ((List.range (digitsToNat ds)).map
        fun k : Nat =>
          a + (digitsToNat ms : Int) * hourSec + (k : Int) * daySec
      ).Pairwise (· < ·) := by
  have hlowTail : lowerStr hoursAfterTail = hoursAfterTail := by decide
  have hlowDaily : lowerStr dailyLead = dailyLead := by decide
  have hlowMid : lowerStr daysStartingMid = daysStartingMid := by decide
  refine ⟨?_, ?_, ?_⟩
  · have hr1 : readTiming (lowerStr (String.mk (ds ++ hoursAfterTail)).toList)
        = some (.hoursAfter (digitsToNat ds)) := by
      show readTiming (lowerStr (ds ++ hoursAfterTail)) = _
      rw [lowerStr_append, lowerStr_digits hds.2, hlowTail]
      exact readTiming_hours_run hds
    have hc : candidateTimes (.hoursAfter (digitsToNat ds)) (some a)
        = .ok [a + (digitsToNat ds : Int) * hourSec] := rfl
    simp only [resolve, hr1, hc]
    rw [if_pos]
    simp only [List.all_cons, List.all_nil, Bool.and_true,
      decide_eq_true_eq]
    exact le_add_of_nonneg_right
      (mul_nonneg (Int.natCast_nonneg _) (by decide))
  · have hr2 : readTiming (lowerStr (String.mk
        (dailyLead ++ ds ++ daysStartingMid ++ ms ++ hoursAfterTail)).toList)
        = some (.dailyFor (digitsToNat ds) (digitsToNat ms)) := by
      show readTiming (lowerStr
        (dailyLead ++ ds ++ daysStartingMid ++ ms ++ hoursAfterTail)) = _
      simp only [lowerStr_append, lowerStr_digits hds.2,
        lowerStr_digits hms.2, hlowTail, hlowDaily, hlowMid]
      exact readTiming_daily_run hds hms
    have hc : candidateTimes
        (.dailyFor (digitsToNat ds) (digitsToNat ms)) (some a)
        = .ok ((List.range (digitsToNat ds)).map
            fun k : Nat => a + (digitsToNat ms : Int) * hourSec
              + (k : Int) * daySec) := rfl
    simp only [resolve, hr2, hc]
    rw [if_pos]
    refine List.all_eq_true.mpr ?_
    intro x hx
    rcases List.mem_map.mp hx with ⟨k, _, rfl⟩
    rw [decide_eq_true_eq]
    have h1 : 0 ≤ (digitsToNat ms : Int) * hourSec :=
      mul_nonneg (Int.natCast_nonneg _) (by decide)
    have h2 : 0 ≤ (k : Int) * daySec :=
      mul_nonneg (Int.natCast_nonneg _) (by decide)
    linarith
  · refine List.Pairwise.map _ ?_ (List.pairwise_lt_range _)
    intro k k' hkk
    have hk : (k : Int) < (k' : Int) := by exact_mod_cast hkk
    have := mul_lt_mul_of_pos_right hk (show (0 : Int) < daySec by decide)
    linarith

/-- Witness for C3 at `"24_hours_after_discharge"` and
`"daily_for_3_days_starting_12_hours_after_discharge"` with anchor 0. -/
theorem timing_resolver_relative_witness :
    resolve (String.mk (['2', '4'] ++ hoursAfterTail)) (some 0)
      = .ok [0 + (digitsToNat ['2', '4'] : Int) * hourSec] ∧
    resolve (String.mk (dailyLead ++ ['3'] ++ daysStartingMid ++ ['1', '2']
        ++ hoursAfterTail)) (some 0)
      = .ok ((List.range (digitsToNat ['3'])).map
          fun k : Nat => 0 + (digitsToNat ['1', '2'] : Int) * hourSec
            + (k : Int) * daySec) :=
  ⟨(timing_resolver_relative ['2', '4'] ['1'] 0
      ⟨by decide, by decide⟩ ⟨by decide, by decide⟩).1,
   (timing_resolver_relative ['3'] ['1', '2'] 0
      ⟨by decide, by decide⟩ ⟨by decide, by decide⟩).2.1⟩

instance {ε α : Type} [DecidableEq ε] [DecidableEq α] :
    DecidableEq (Except ε α)
  | .error e, .error f =>
    if h : e = f then .isTrue (by rw [h])
    else .isFalse fun hh => h (by injection hh)
  | .error _, .ok _ => .isFalse fun hh => nomatch hh
  | .ok _, .error _ => .isFalse fun hh => nomatch hh
  | .ok x, .ok y =>
    if h : x = y then .isTrue (by rw [h])
    else .isFalse fun hh => h (by injection hh)

/-! ## Grammar soundness: whatever parses is in the spec's grammar -/

theorem readHoursAfter_sound {l : List Char} {n : Nat}
    (h : readHoursAfter l = some n) :
    ∃ ds, DigitRun ds ∧ l = ds ++ hoursAfterTail := by
  rw [readHoursAfter] at h
  split at h
  · rename_i hc
    obtain ⟨hne, hdrop⟩ := hc
    refine ⟨l.takeWhile isDigitC,
      ⟨hne, fun c hc => List.mem_takeWhile_imp hc⟩, ?_⟩
    rw [← hdrop]
    exact (List.takeWhile_append_dropWhile _ _).symm
  · exact nomatch h

theorem readDaily_sound {l : List Char} {nm : Nat × Nat}
    (h : readDaily l = some nm) :
    ∃ ds ms, DigitRun ds ∧ DigitRun ms ∧
      l = dailyLead ++ ds ++ daysStartingMid ++ ms ++ hoursAfterTail := by
  rw [readDaily] at h
  cases h1 : stripLead dailyLead l with
  | none => simp only [h1] at h; exact nomatch h
  | some r1 =>
    simp only [h1] at h
    split at h
    · exact nomatch h
    · rename_i hne1
      cases h2 : stripLead daysStartingMid (r1.dropWhile isDigitC) with
      | none => simp only [h2] at h; exact nomatch h
      | some r2 =>
        simp only [h2] at h
        split at h
        · rename_i hc2
          obtain ⟨hne2, hdrop2⟩ := hc2
          have hl : l = dailyLead ++ r1 := (stripLead_iff _ _ _).mp h1
          have hr1d : r1.dropWhile isDigitC = daysStartingMid ++ r2 :=
            (stripLead_iff _ _ _).mp h2
          refine ⟨r1.takeWhile isDigitC, r2.takeWhile isDigitC,
            ⟨hne1, fun c hc => List.mem_takeWhile_imp hc⟩,
            ⟨hne2, fun c hc => List.mem_takeWhile_imp hc⟩, ?_⟩
          calc l = dailyLead ++ r1 := hl
            _ = dailyLead ++
                (r1.takeWhile isDigitC ++ r1.dropWhile isDigitC) := by
                rw [List.takeWhile_append_dropWhile]
            _ = dailyLead ++
                (r1.takeWhile isDigitC ++ (daysStartingMid ++ r2)) := by
                rw [hr1d]
            _ = dailyLead ++ (r1.takeWhile isDigitC ++ (daysStartingMid ++
                (r2.takeWhile isDigitC ++ r2.dropWhile isDigitC))) := by
                rw [List.takeWhile_append_dropWhile]
            _ = dailyLead ++ (r1.takeWhile isDigitC ++ (daysStartingMid ++
                (r2.takeWhile isDigitC ++ hoursAfterTail))) := by
                rw [hdrop2]
            _ = dailyLead ++ r1.takeWhile isDigitC ++ daysStartingMid ++
                r2.takeWhile isDigitC ++ hoursAfterTail := by
                simp [List.append_assoc]
        · exact nomatch h

theorem readWithin_sound {l : List Char} {n : Nat}
    (h : readWithin l = some n) :
    ∃ ds, DigitRun ds ∧ l = withinLead ++ ds ++ hoursTail := by
  rw [readWithin] at h
  cases h1 : stripLead withinLead l with
  | none => simp only [h1] at h; exact nomatch h
  | some r =>
    simp only [h1] at h
    split at h
    · rename_i hc
      obtain ⟨hne, hdrop⟩ := hc
      have hl : l = withinLead ++ r := (stripLead_iff _ _ _).mp h1
      refine ⟨r.takeWhile isDigitC,
        ⟨hne, fun c hc => List.mem_takeWhile_imp hc⟩, ?_⟩
      calc l = withinLead ++ r := hl
        _ = withinLead ++ (r.takeWhile isDigitC ++ r.dropWhile isDigitC) := by
            rw [List.takeWhile_append_dropWhile]
        _ = withinLead ++ (r.takeWhile isDigitC ++ hoursTail) := by
            rw [hdrop]
        _ = withinLead ++ r.takeWhile isDigitC ++ hoursTail := by
            rw [List.append_assoc]
    · exact nomatch h

theorem readDayBefore_sound {l : List Char} {ymd : Nat × Nat × Nat}
    (h : readDayBefore l = some ymd) :
    ∃ y1 y2 y3 y4 m1 m2 d1 d2,
      (∀ c ∈ [y1, y2, y3, y4, m1, m2, d1, d2], isDigitC c = true) ∧
      l = dayBeforeLead ++ [y1, y2, y3, y4, '-', m1, m2, '-', d1, d2] := by
  rw [readDayBefore] at h
  cases h1 : stripLead dayBeforeLead l with
  | none => simp only [h1] at h; exact nomatch h
  | some r =>
    simp only [h1] at h
    have hl : l = dayBeforeLead ++ r := (stripLead_iff _ _ _).mp h1
    split at h
    · rename_i y1 y2 y3 y4 c1 m1 m2 c2 d1 d2
      split at h
      · rename_i hc
        obtain ⟨hdig, hd1, hd2⟩ := hc
        simp only [Bool.and_eq_true] at hdig
        subst hd1
        subst hd2
        refine ⟨y1, y2, y3, y4, m1, m2, d1, d2, ?_, hl⟩
        intro c hc
        simp only [List.mem_cons, List.not_mem_nil, or_false] at hc
        rcases hc with rfl | rfl | rfl | rfl | rfl | rfl | rfl | rfl
        · exact hdig.1.1.1.1.1.1.1
        · exact hdig.1.1.1.1.1.1.2
        · exact hdig.1.1.1.1.1.2
        · exact hdig.1.1.1.1.2
        · exact hdig.1.1.1.2
        · exact hdig.1.1.2
        · exact hdig.1.2
        · exact hdig.2
      · exact nomatch h
    · exact nomatch h

theorem readTiming_sound {l : List Char} {t : TimingSpec}
    (h : readTiming l = some t) : RecognizedTiming l := by
  rw [readTiming] at h
  cases h1 : readDaily l with
  | some nm => exact Or.inr (Or.inl (readDaily_sound h1))
  | none =>
    simp only [h1] at h
    cases h2 : readHoursAfter l with
    | some n => exact Or.inl (readHoursAfter_sound h2)
    | none =>
      simp only [h2] at h
      cases h3 : readWithin l with
      | some n => exact Or.inr (Or.inr (Or.inl (readWithin_sound h3)))
      | none =>
        simp only [h3] at h
        cases h4 : readDayBefore l with
        | some ymd =>
          exact Or.inr (Or.inr (Or.inr (readDayBefore_sound h4)))
        | none => simp only [h4] at h; exact nomatch h

/-- C4: `resolve` never returns a timestamp strictly before the anchor
and never clamps (an `ok` result is exactly the raw candidate list); a
spec outside the recognized grammar fails with `InvalidTimingSpec`; a
discharge-relative spec without an anchor fails with `MissingAnchor`; and
whenever a candidate timestamp would fall strictly before the anchor the
resolver fails with `PastSchedule`. -/
theorem timing_resolver_errors :
    (∀ (s : String) (a : Int) (ts : List Int),
        resolve s (some a) = .ok ts → ∀ t ∈ ts, a ≤ t) ∧
    (∀ (s : String) (anchor : Option Int),
        ¬ RecognizedTiming (lowerStr s.toList) →
        resolve s anchor = .error .invalidTimingSpec) ∧
    (∀ (s : String) (t : TimingSpec),
        readTiming (lowerStr s.toList) = some t →
        dischargeRelative t = true →
        resolve s none = .error .missingAnchor) ∧
    (∀ (s : String) (t : TimingSpec) (a : Int) (ts : List Int),
        readTiming (lowerStr s.toList) = some t →
        candidateTimes t (some a) = .ok ts → (∃ x ∈ ts, x < a) →
        resolve s (some a) = .error .pastSchedule) ∧
    (∀ (s : String) (a : Int) (ts : List Int),
        resolve s (some a) = .ok ts →
        ∃ t, readTiming (lowerStr s.toList) = some t ∧
          candidateTimes t (some a) = .ok ts) := by
  refine ⟨?_, ?_, ?_, ?_, ?_⟩
  · intro s a ts h t ht
    rw [resolve] at h
    cases hr : readTiming (lowerStr s.toList) with
    | none => simp only [hr] at h; exact nomatch h
    | some tt =>
      simp only [hr] at h
      cases hc : candidateTimes tt (some a) with
      | error e => simp only [hc] at h; exact nomatch h
      | ok l =>
        simp only [hc] at h
        split at h
        · rename_i hall
          injection h with h
          subst h
          have := List.all_eq_true.mp hall t ht
          exact decide_eq_true_eq.mp this
        · exact nomatch h
  · intro s anchor hnr
    cases hr : readTiming (lowerStr s.toList) with
    | none => simp only [resolve, hr]
    | some t => exact absurd (readTiming_sound hr) hnr
  · intro s t hr hrel
    simp only [resolve, hr]
    cases t with
    | hoursAfter n => rfl
    | dailyFor n m => rfl
    | withinHours n => rfl
    | dayBefore y mo d => exact nomatch hrel
  · intro s t a ts hr hc hex
    obtain ⟨x, hx, hlt⟩ := hex
    simp only [resolve, hr, hc]
    rw [if_neg]
    intro hall
    have := List.all_eq_true.mp hall x hx
    rw [decide_eq_true_eq] at this
    omega
  · intro s a ts h
    rw [resolve] at h
    cases hr : readTiming (lowerStr s.toList) with
    | none => simp only [hr] at h; exact nomatch h
    | some tt =>
      simp only [hr] at h
      cases hc : candidateTimes tt (some a) with
      | error e => simp only [hc] at h; exact nomatch h
      | ok l =>
        simp only [hc] at h
        split at h
        · injection h with h
          subst h
          exact ⟨tt, rfl, hc⟩
        · exact nomatch h

/-- Witness for C4: a relative spec with no anchor yields `MissingAnchor`
and an absolute date before the anchor yields `PastSchedule`. -/
theorem timing_resolver_errors_witness :
    resolve "24_hours_after_discharge" none = .error .missingAnchor ∧
    resolve "day_before_date:1960-01-01" (some 0)
      = .error .pastSchedule := by
  constructor
  · exact timing_resolver_errors.2.2.1 "24_hours_after_discharge"
      (.hoursAfter 24) (by decide) rfl
  · exact timing_resolver_errors.2.2.2.1 "day_before_date:1960-01-01"
      (.dayBefore 1960 1 1) 0 [-315673200] (by decide) (by decide)
      ⟨-315673200, by decide, by decide⟩

end PostOp
